import Mathlib

/-!
Verification of the daybreak token-migration analysis engine.

This file gives a shallow embedding, in Lean 4, of the core decoding,
bytecode-analysis, compatibility and risk-scoring logic of the repository
(`src/analyzers/evm/decoder.rs`, `src/analyzers/evm/bytecode.rs`,
`src/analyzers/compatibility.rs`, `src/scoring/risk.rs`,
`src/types/analysis.rs`, `src/types/compatibility.rs`,
`src/types/token.rs`), followed by theorems settling the frozen claims.

Modelling conventions:
* Rust `&str` values are modelled as `List Char`.  All string inputs that
  the claims quantify over are ASCII, where Rust's byte-wise operations
  coincide with the character-wise operations used here.
* Rust `Result<T>` is modelled as `Option T` (`none` = error; the claims
  never depend on error messages).
* Machine integers are modelled as `ℕ`.  Where a Rust computation is done
  in a fixed-width type and can actually wrap, an explicit `% 2 ^ w`
  appears (the `u8` total in `RiskScore::from_components` and the `usize`
  index arithmetic in `decode_string`).  The `u8`/`u16` arithmetic inside
  `hex_to_decimal` operates on decimal digits (< 10) and carries (≤ 15),
  proved below, so it can never wrap and is modelled without a modulus.
* Rust `f64` percentages are modelled as `ℚ`: the only float operations
  in scope are order comparisons against the literals 50, 70 and 85, and
  every branch of the scoring code is reachable in the `ℚ` model, so the
  proved bounds cover every branch the Rust code can take.
-/

/-! ### Character / hex-string helpers -/

/-- Model of Rust `char::to_digit(16)`. -/
def hexDigit? (c : Char) : Option ℕ :=
  if '0' ≤ c ∧ c ≤ '9' then some (c.toNat - '0'.toNat)
  else if 'a' ≤ c ∧ c ≤ 'f' then some (c.toNat - 'a'.toNat + 10)
  else if 'A' ≤ c ∧ c ≤ 'F' then some (c.toNat - 'A'.toNat + 10)
  else none

/-- A character accepted by `char::to_digit(16)`. -/
def isHexDigitChar (c : Char) : Bool :=
  (hexDigit? c).isSome

/-- Model of Rust `str::trim_start_matches("0x")`: repeatedly removes a
leading `"0x"`. -/
def stripPrefix0x : List Char → List Char
  | '0' :: 'x' :: rest => stripPrefix0x rest
  | l => l

/-- Model of Rust `uN::from_str_radix(s, 16)` for an unsigned integer type
whose exclusive upper bound is `bound`: an optional leading `'+'`, then a
non-empty run of base-16 digits; overflow is an error.  The net result of
Rust's digit-by-digit checked evaluation is `Ok v` exactly when the digits
are valid and the value fits. -/
def fromStrRadix16 (s : List Char) (bound : ℕ) : Option ℕ :=
  let ds := if s.head? = some '+' then s.tail else s
  if ds.isEmpty then none
  else if ds.all isHexDigitChar then
    let v := ds.foldl (fun a c => 16 * a + (hexDigit? c).getD 0) 0
    if v < bound then some v else none
  else none

/-- The base-10 decimal character string of `n` (most significant digit
first); model of Rust integer `to_string()` and the specification's
"base-10 decimal string". -/
def decChars (n : ℕ) : List Char :=
  if n = 0 then ['0'] else ((Nat.digits 10 n).map Nat.digitChar).reverse

/-! ### `AbiDecoder::hex_to_decimal` (decoder.rs lines 40-77)

The running decimal accumulator is a `List ℕ` of decimal digits, least
significant first, exactly as in the Rust `Vec<u8>`. -/

/-- The `for d in result.iter_mut()` loop of the multiply-by-16 phase:
returns the updated digit list and the final carry. -/
def mulLoop : List ℕ → ℕ → List ℕ × ℕ
  | [], c => ([], c)
  | d :: ds, c =>
    let val := d * 16 + c
    let p := mulLoop ds (val / 10)
    (val % 10 :: p.1, p.2)

/-- The `while carry > 0 { result.push(carry % 10); carry /= 10 }` loop.
Written with a structural fuel argument (the loop runs at most `c` times
since `c / 10 < c` for `c > 0`); `pushCarryAux_eq_digits` below shows it
computes the base-10 digits of the carry. -/
def pushCarryAux : ℕ → ℕ → List ℕ
  | 0, _ => []
  | fuel + 1, c => if c = 0 then [] else c % 10 :: pushCarryAux fuel (c / 10)

def pushCarry (c : ℕ) : List ℕ :=
  pushCarryAux c c

/-- One multiply-result-by-16 pass (first half of the `for ch in
hex.chars()` body). -/
def mulBy16 (l : List ℕ) : List ℕ :=
  let p := mulLoop l 0
  p.1 ++ pushCarry p.2

/-- The add-the-hex-digit loop (second half of the body): adds `c` into
the digit list, breaking as soon as the carry is zero; untouched digits
keep their values. -/
def addLoop : List ℕ → ℕ → List ℕ × ℕ
  | [], c => ([], c)
  | d :: ds, c =>
    let val := d + c
    if val / 10 = 0 then (val % 10 :: ds, 0)
    else
      let p := addLoop ds (val / 10)
      (val % 10 :: p.1, p.2)

def addDigit (l : List ℕ) (c : ℕ) : List ℕ :=
  let p := addLoop l c
  p.1 ++ pushCarry p.2

/-- The whole body of `for ch in hex.chars()` for one hex digit value. -/
def hexStep (l : List ℕ) (d : ℕ) : List ℕ :=
  addDigit (mulBy16 l) d

/-- Model of `AbiDecoder::hex_to_decimal`: non-hex characters become
digit 0 (`to_digit(16).unwrap_or(0)`); the accumulated digit list is
reversed and rendered (`(b'0' + d) as char`). -/
def hexToDecimal (s : List Char) : List Char :=
  let result := s.foldl (fun r c => hexStep r ((hexDigit? c).getD 0)) [0]
  result.reverse.map (fun d => Char.ofNat ('0'.toNat + d))

/-- Model of `AbiDecoder::decode_uint256` (decoder.rs lines 8-37). -/
def decodeUint256 (s : List Char) : Option (List Char) :=
  let hex := stripPrefix0x s
  if hex.isEmpty || hex.all (· == '0') then some ['0']
  else
    let trimmed := hex.dropWhile (· == '0')
    if trimmed.isEmpty then some ['0']
    else if trimmed.length ≤ 16 then
      (fromStrRadix16 trimmed (2 ^ 64)).map decChars
    else if trimmed.length ≤ 32 then
      (fromStrRadix16 trimmed (2 ^ 128)).map decChars
    else some (hexToDecimal trimmed)

/-- The zero-padded 64-hex-digit big-endian (lowercase) encoding of `N`
used by the specification's round-trip property; defined from the
specification sentence, not from the code. -/
def encodeHex64 (n : ℕ) : List Char :=
  let sig := ((Nat.digits 16 n).map Nat.digitChar).reverse
  List.replicate (64 - sig.length) '0' ++ sig

/-! ### `AbiDecoder::decode_string` (decoder.rs lines 96-151) -/

/-- Pairs of hex characters parsed to bytes: the
`(0..len).step_by(2).filter_map(|i| u8::from_str_radix(&s[i..i+2], 16).ok())`
pipeline.  Invalid pairs are silently dropped; a lone trailing character is
ignored. -/
def parsePairs : List Char → List ℕ
  | a :: b :: rest =>
    match fromStrRadix16 [a, b] 256 with
    | some v => v :: parsePairs rest
    | none => parsePairs rest
  | _ => []

/-- A UTF-8 continuation byte. -/
def isCont (b : ℕ) : Bool :=
  0x80 ≤ b && b ≤ 0xBF

/-- Model of `String::from_utf8`: strict UTF-8 validation (shortest form
only, surrogates and values above U+10FFFF rejected), `none` on any
invalid byte. -/
def utf8Decode : List ℕ → Option (List Char)
  | [] => some []
  | b :: rest =>
    if b ≤ 0x7F then
      (utf8Decode rest).map (fun cs => Char.ofNat b :: cs)
    else if 0xC2 ≤ b && b ≤ 0xDF then
      match rest with
      | b1 :: rest2 =>
        if isCont b1 then
          (utf8Decode rest2).map (fun cs =>
            Char.ofNat ((b - 0xC0) * 0x40 + (b1 - 0x80)) :: cs)
        else none
      | [] => none
    else if 0xE0 ≤ b && b ≤ 0xEF then
      match rest with
      | b1 :: b2 :: rest3 =>
        let lo1 := if b = 0xE0 then 0xA0 else 0x80
        let hi1 := if b = 0xED then 0x9F else 0xBF
        if lo1 ≤ b1 && b1 ≤ hi1 && isCont b2 then
          (utf8Decode rest3).map (fun cs =>
            Char.ofNat ((b - 0xE0) * 0x1000 + (b1 - 0x80) * 0x40 + (b2 - 0x80)) :: cs)
        else none
      | _ => none
    else if 0xF0 ≤ b && b ≤ 0xF4 then
      match rest with
      | b1 :: b2 :: b3 :: rest4 =>
        let lo1 := if b = 0xF0 then 0x90 else 0x80
        let hi1 := if b = 0xF4 then 0x8F else 0xBF
        if lo1 ≤ b1 && b1 ≤ hi1 && isCont b2 && isCont b3 then
          (utf8Decode rest4).map (fun cs =>
            Char.ofNat
              ((b - 0xF0) * 0x40000 + (b1 - 0x80) * 0x1000 + (b2 - 0x80) * 0x40 + (b3 - 0x80)) :: cs)
        else none
      | _ => none
    else none

/-- Model of Rust `str::trim` restricted to the characters that can occur
here: `extract_ascii` keeps only printable ASCII 0x20-0x7E, among which the
space is the only Unicode whitespace character, so trimming spaces is
exact. -/
def rustTrimSpaces (l : List Char) : List Char :=
  ((l.dropWhile (· == ' ')).reverse.dropWhile (· == ' ')).reverse

/-- Model of `AbiDecoder::extract_ascii` (the lenient fallback for
responses shorter than the two-word header).  `String::from_utf8_lossy` on
bytes already filtered to printable ASCII is the identity. -/
def extractAscii (hex : List Char) : List Char :=
  rustTrimSpaces (((parsePairs hex).filter (fun b => 0x20 ≤ b && b < 0x7F)).map Char.ofNat)

/-- Byte-lexicographic `≤` on strings (Rust `str` `Ord`; on chars,
UTF-8 byte order equals code-point order). -/
def strLe : List Char → List Char → Bool
  | [], _ => true
  | _ :: _, [] => false
  | x :: xs, y :: ys => if x < y then true else if y < x then false else strLe xs ys

/-- Model of `AbiDecoder::decode_string` (decoder.rs lines 98-134).
The length word is parsed with
`usize::from_str_radix(length_hex.trim_start_matches('0').max("0"), 16).unwrap_or(0)`
(usize taken as 64-bit); the index arithmetic
`(data_start + length * 2).min(hex.len())` is `usize` arithmetic, modelled
with its wrapping semantics (`% 2 ^ 64`), though for every input whose
length word is below 2^63 no wrap occurs. -/
def decodeString (s : List Char) : Option (List Char) :=
  let hex := stripPrefix0x s
  if hex.length < 128 then some (extractAscii hex)
  else
    let lengthHex := (hex.drop 64).take 64
    let trimmedLen := lengthHex.dropWhile (· == '0')
    let maxed := if strLe trimmedLen ['0'] then ['0'] else trimmedLen
    let len := (fromStrRadix16 maxed (2 ^ 64)).getD 0
    if len = 0 then some []
    else
      let dataEnd := min ((128 + len * 2 % 2 ^ 64) % 2 ^ 64) hex.length
      let dataHex := (hex.drop 128).take (dataEnd - 128)
      utf8Decode (parsePairs dataHex)

/-! ### Types (types/token.rs, types/analysis.rs, types/compatibility.rs)

`CompatibilityIssue` carries three further `String` fields in the source
(`title`, `description`, `recommendation`); they are display-only — no
control flow or claim reads them — and are omitted from the embedding.

`TokenCapabilities` in the given `types/token.rs` snapshot lists six
booleans, while `compatibility.rs`, `risk.rs` and `output/terminal.rs` all
read a seventh field `is_rebasing` (the spec's FeatureVector also lists
rebasing, sourced externally since it cannot be derived from bytecode).
The embedding includes `is_rebasing`; `detect_capabilities` leaves it
`false`. -/

inductive Chain
  | Ethereum | Polygon | Arbitrum | Optimism | Base | Avalanche | Bsc
deriving DecidableEq

structure TokenInfo where
  address : String
  chain : Chain
  name : String
  symbol : String
  decimals : ℕ
  total_supply : String
deriving DecidableEq

structure TokenCapabilities where
  has_mint : Bool
  has_burn : Bool
  has_pause : Bool
  has_blacklist : Bool
  has_permit : Bool
  is_upgradeable : Bool
  is_rebasing : Bool
deriving DecidableEq

inductive ProxyType
  | Eip1967 | Eip1822 | TransparentUpgradeable | MinimalProxy | Unknown
deriving DecidableEq

inductive BytecodeComplexity
  | Simple | Moderate | Complex
deriving DecidableEq

structure BytecodeAnalysis where
  size_bytes : ℕ
  is_proxy : Bool
  proxy_type : Option ProxyType
  implementation_address : Option String
  has_selfdestruct : Bool
  has_delegatecall : Bool
  has_fee_pattern : Bool
  complexity : BytecodeComplexity
deriving DecidableEq

/-- `BytecodeAnalysis::default()`. -/
def BytecodeAnalysis.default : BytecodeAnalysis :=
  ⟨0, false, none, none, false, false, false, BytecodeComplexity.Simple⟩

inductive IssueSeverity
  | Info | Warning | Error
deriving DecidableEq

structure CompatibilityIssue where
  severity : IssueSeverity
  code : String
deriving DecidableEq

inductive NttMode
  | Locking | Burning
deriving DecidableEq

structure CompatibilityResult where
  is_compatible : Bool
  recommended_mode : NttMode
  issues : List CompatibilityIssue
  decimal_trimming_required : Bool
  solana_decimals : ℕ
deriving DecidableEq

inductive BridgeType
  | Portal | Ntt | Native
deriving DecidableEq

structure BridgeStatus where
  already_on_solana : Bool
  solana_address : Option String
  bridge_provider : Option String
  bridge_type : Option BridgeType
  wormhole_attested : Bool
deriving DecidableEq

structure HolderInfo where
  address : String
  balance : String
  percentage : ℚ
deriving DecidableEq

structure HolderData where
  top_holders : List HolderInfo
  top_10_concentration : ℚ
  total_holders : Option ℕ
deriving DecidableEq

structure RiskComponents where
  decimal_handling : ℕ
  token_features : ℕ
  bytecode_complexity : ℕ
  holder_concentration : ℕ
  bridge_status : ℕ
deriving DecidableEq

inductive RiskRating
  | Low | Medium | High
deriving DecidableEq

structure RiskScore where
  total : ℕ
  rating : RiskRating
  components : RiskComponents
deriving DecidableEq

/-- `RiskScore::from_components` (types/analysis.rs lines 152-176): the
five `u8` components are summed in `u8` (modelled `% 2 ^ 8`), clamped with
`min 100`, and rated by the fixed thresholds. -/
def RiskScore.from_components (components : RiskComponents) : RiskScore :=
  let total := (components.decimal_handling + components.token_features +
    components.bytecode_complexity + components.holder_concentration +
    components.bridge_status) % 2 ^ 8
  let total := min total 100
  let rating := if total ≤ 33 then RiskRating.Low
    else if total ≤ 66 then RiskRating.Medium
    else RiskRating.High
  ⟨total, rating, components⟩

/-! ### `BytecodeAnalyzer` (analyzers/evm/bytecode.rs) -/

/-- ASCII lowercase; model of `str::to_lowercase` for the inputs in scope
(Rust's Unicode lowercasing never maps any character to an ASCII hex
digit, so the selector-containment results below are unaffected by
restricting to ASCII). -/
def asciiLower (c : Char) : Char :=
  if 'A' ≤ c ∧ c ≤ 'Z' then Char.ofNat (c.toNat + 32) else c

/-- Model of Rust `str::contains(&str)`: substring containment. -/
def containsSeq : List Char → List Char → Bool
  | hay, needle =>
    needle.isPrefixOf hay ||
      match hay with
      | [] => false
      | _ :: t => containsSeq t needle

namespace capability_selectors

def MINT : List Char := "40c10f19".toList
def BURN : List Char := "42966c68".toList
def BURN_FROM : List Char := "79cc6790".toList
def PAUSE : List Char := "8456cb59".toList
def UNPAUSE : List Char := "3f4ba83a".toList
def BLACKLIST : List Char := "f9f92be4".toList
def ADD_BLACKLIST : List Char := "44337ea1".toList
def PERMIT : List Char := "d505accf".toList

end capability_selectors

/-- EIP-1167 minimal proxy marker (`MINIMAL_PROXY_PREFIX` in the source). -/
def minimalProxyMarker : List Char := "363d3d373d3d3d363d73".toList

/-- `format!("{:02x}", opcode)` for a byte value. -/
def byteHexChars (b : ℕ) : List Char :=
  [Nat.digitChar (b / 16 % 16), Nat.digitChar (b % 16)]

/-- `BytecodeAnalyzer::has_opcode`: substring scan for the two-hex-char
\x7b:02x\x7d rendering of the opcode over the lowercased bytecode. -/
def hasOpcode (bytecode : List Char) (opcode : ℕ) : Bool :=
  containsSeq (bytecode.map asciiLower) (byteHexChars opcode)

/-- `BytecodeAnalyzer::calculate_complexity`. -/
def calculateComplexity (size_bytes : ℕ) : BytecodeComplexity :=
  if size_bytes < 5 * 1024 then BytecodeComplexity.Simple
  else if size_bytes < 15 * 1024 then BytecodeComplexity.Moderate
  else BytecodeComplexity.Complex

/-- `BytecodeAnalyzer::detect_proxy`. -/
def detectProxy (bytecode : List Char) : Bool × Option ProxyType :=
  let lower := bytecode.map asciiLower
  if minimalProxyMarker.isPrefixOf lower then (true, some ProxyType.MinimalProxy)
  else
    let size := bytecode.length / 2
    let hasDc := hasOpcode lower 0xf4
    if hasDc && size < 1000 then (true, some ProxyType.Eip1967)
    else if hasDc && size < 5000 then (true, some ProxyType.TransparentUpgradeable)
    else (false, none)

/-- `BytecodeAnalyzer::detect_fee_pattern`: fixed fee-setter selectors. -/
def detectFeePattern (bytecode : List Char) : Bool :=
  let lower := bytecode.map asciiLower
  containsSeq lower "69fe0e2d".toList || containsSeq lower "c0b0fda2".toList ||
    containsSeq lower "e01af92c".toList || containsSeq lower "f41e60c5".toList

/-- `BytecodeAnalyzer::analyze` (bytecode.rs lines 33-58). -/
def analyze (bytecode : List Char) : BytecodeAnalysis :=
  let bc := stripPrefix0x bytecode
  let size := bc.length / 2
  if size = 0 then BytecodeAnalysis.default
  else
    let p := detectProxy bc
    { size_bytes := size
      is_proxy := p.1
      proxy_type := p.2
      implementation_address := none
      has_selfdestruct := hasOpcode bc 0xff
      has_delegatecall := hasOpcode bc 0xf4
      has_fee_pattern := detectFeePattern bc
      complexity := calculateComplexity size }

/-- `BytecodeAnalyzer::detect_capabilities` (bytecode.rs lines 61-75). -/
def detectCapabilities (bytecode : List Char) : TokenCapabilities :=
  let bc := (stripPrefix0x bytecode).map asciiLower
  { has_mint := containsSeq bc capability_selectors.MINT
    has_burn := containsSeq bc capability_selectors.BURN ||
      containsSeq bc capability_selectors.BURN_FROM
    has_pause := containsSeq bc capability_selectors.PAUSE ||
      containsSeq bc capability_selectors.UNPAUSE
    has_blacklist := containsSeq bc capability_selectors.BLACKLIST ||
      containsSeq bc capability_selectors.ADD_BLACKLIST
    has_permit := containsSeq bc capability_selectors.PERMIT
    is_upgradeable := (detectProxy bc).1
    is_rebasing := false }

/-! ### `CompatibilityChecker` (analyzers/compatibility.rs)

The Rust functions push onto a mutable `Vec<CompatibilityIssue>`; each is
modelled as the list of issues it appends, concatenated in the fixed call
order by `CompatibilityChecker.check`. -/

namespace CompatibilityChecker

/-- `check_decimals`: (issues appended, decimal_trimming_required,
solana_decimals). -/
def check_decimals (decimals : ℕ) : List CompatibilityIssue × Bool × ℕ :=
  if decimals > 8 then
    ([⟨IssueSeverity.Warning, "DECIMAL_TRIM"⟩], true, 8)
  else
    ([], false, decimals)

/-- `check_rebasing`. -/
def check_rebasing (capabilities : TokenCapabilities) : List CompatibilityIssue :=
  if capabilities.is_rebasing then [⟨IssueSeverity.Error, "REBASING"⟩] else []

/-- `check_features`. -/
def check_features (capabilities : TokenCapabilities) (bytecode : BytecodeAnalysis) :
    List CompatibilityIssue :=
  (if bytecode.has_fee_pattern then [⟨IssueSeverity.Error, "FEE_ON_TRANSFER"⟩] else []) ++
    (if capabilities.has_pause then [⟨IssueSeverity.Warning, "PAUSABLE"⟩] else []) ++
    (if capabilities.has_blacklist then [⟨IssueSeverity.Warning, "BLACKLIST"⟩] else []) ++
    (if capabilities.has_mint then [⟨IssueSeverity.Info, "MINTABLE"⟩] else []) ++
    (if capabilities.has_burn then [⟨IssueSeverity.Info, "BURNABLE"⟩] else [])

/-- `check_bytecode`. -/
def check_bytecode (bytecode : BytecodeAnalysis) : List CompatibilityIssue :=
  (if bytecode.has_selfdestruct then [⟨IssueSeverity.Warning, "SELFDESTRUCT"⟩] else []) ++
    (if bytecode.is_proxy then [⟨IssueSeverity.Info, "PROXY"⟩] else [])

/-- `determine_mode` (compatibility.rs lines 206-213). -/
def determine_mode (capabilities : TokenCapabilities) : NttMode :=
  if capabilities.has_burn then NttMode.Burning else NttMode.Locking

/-- `check` (compatibility.rs lines 11-44). -/
def check (token : TokenInfo) (capabilities : TokenCapabilities)
    (bytecode : BytecodeAnalysis) : CompatibilityResult :=
  let d := check_decimals token.decimals
  let issues := d.1 ++ check_rebasing capabilities ++
    check_features capabilities bytecode ++ check_bytecode bytecode
  { is_compatible := !(issues.any (fun i => i.severity == IssueSeverity.Error))
    recommended_mode := determine_mode capabilities
    issues := issues
    decimal_trimming_required := d.2.1
    solana_decimals := d.2.2 }

end CompatibilityChecker

/-! ### `RiskScorer` (scoring/risk.rs) -/

namespace RiskScorer

/-- `score_decimals` (risk.rs lines 31-39): the `u8` match arms
`0..=8 / 9 / 10..=12 / 13..=15 / _`. -/
def score_decimals (decimals : ℕ) : ℕ :=
  if decimals ≤ 8 then 0
  else if decimals = 9 then 3
  else if decimals ≤ 12 then 8
  else if decimals ≤ 15 then 14
  else 20

/-- `score_features` (risk.rs lines 42-71).  The `u8` accumulator reaches
at most 15 + 3 + 4 + 3 = 25, so no wrap occurs. -/
def score_features (capabilities : TokenCapabilities) (bytecode : BytecodeAnalysis) : ℕ :=
  if capabilities.is_rebasing then 25
  else
    let score := (if bytecode.has_fee_pattern then 15 else 0) +
      (if capabilities.has_pause then 3 else 0) +
      (if capabilities.has_blacklist then 4 else 0) +
      (if bytecode.has_selfdestruct then 3 else 0)
    min score 25

/-- `score_bytecode` (risk.rs lines 74-87). -/
def score_bytecode (bytecode : BytecodeAnalysis) : ℕ :=
  let base := match bytecode.complexity with
    | BytecodeComplexity.Simple => 0
    | BytecodeComplexity.Moderate => 8
    | BytecodeComplexity.Complex => 15
  min (base + if bytecode.is_proxy then 5 else 0) 20

/-- `score_holders` (risk.rs lines 90-113). -/
def score_holders (holder_data : Option HolderData) : ℕ :=
  match holder_data with
  | none => 5
  | some data =>
    let topDominates := match data.top_holders.head? with
      | some top => decide (top.percentage > 50)
      | none => false
    if topDominates then 15
    else if data.top_10_concentration < 50 then 0
    else if data.top_10_concentration < 70 then 5
    else if data.top_10_concentration < 85 then 10
    else 15

/-- `score_bridge` (risk.rs lines 116-126). -/
def score_bridge (bridge_status : BridgeStatus) : ℕ :=
  if bridge_status.already_on_solana then 15
  else if bridge_status.wormhole_attested then 5
  else 0

/-- `calculate` (risk.rs lines 11-27). -/
def calculate (token : TokenInfo) (capabilities : TokenCapabilities)
    (bytecode : BytecodeAnalysis) (bridge_status : BridgeStatus)
    (holder_data : Option HolderData) : RiskScore :=
  RiskScore.from_components
    { decimal_handling := score_decimals token.decimals
      token_features := score_features capabilities bytecode
      bytecode_complexity := score_bytecode bytecode
      holder_concentration := score_holders holder_data
      bridge_status := score_bridge bridge_status }

end RiskScorer

/-! ### Supporting lemmas: characters and hex digits -/

theorem hexDigit?_digitChar {d : ℕ} (hd : d < 16) :
    hexDigit? (Nat.digitChar d) = some d := by
  interval_cases d <;> rfl

theorem isHexDigitChar_digitChar {d : ℕ} (hd : d < 16) :
    isHexDigitChar (Nat.digitChar d) = true := by
  simp [isHexDigitChar, hexDigit?_digitChar hd]

theorem digitChar_ne_x {d : ℕ} (hd : d < 16) : Nat.digitChar d ≠ 'x' := by
  interval_cases d <;> decide

theorem digitChar_ne_plus {d : ℕ} (hd : d < 16) : Nat.digitChar d ≠ '+' := by
  interval_cases d <;> decide

theorem digitChar_eq_zero_iff {d : ℕ} (hd : d < 16) :
    Nat.digitChar d = '0' ↔ d = 0 := by
  interval_cases d <;> decide

theorem ofNat_shift_eq_digitChar {d : ℕ} (hd : d < 10) :
    Char.ofNat ('0'.toNat + d) = Nat.digitChar d := by
  interval_cases d <;> rfl

/-! ### Supporting lemmas: the `hex_to_decimal` digit machinery -/

theorem pushCarryAux_eq_digits : ∀ fuel c, c ≤ fuel → pushCarryAux fuel c = Nat.digits 10 c := by
  intro fuel
  induction fuel with
  | zero =>
    intro c hc
    interval_cases c
    simp [pushCarryAux]
  | succ fuel ih =>
    intro c hc
    rcases Nat.eq_zero_or_pos c with h0 | hpos
    · subst h0; simp [pushCarryAux]
    · have hne : c ≠ 0 := hpos.ne'
      have hdiv : c / 10 ≤ fuel := by
        have := Nat.div_lt_self hpos (by norm_num : 1 < 10)
        omega
      simp only [pushCarryAux, if_neg hne, ih _ hdiv]
      exact (Nat.digits_def' (by norm_num) hpos).symm

theorem pushCarry_eq_digits (c : ℕ) : pushCarry c = Nat.digits 10 c :=
  pushCarryAux_eq_digits c c le_rfl

theorem mulLoop_length : ∀ (l : List ℕ) (c : ℕ), (mulLoop l c).1.length = l.length := by
  intro l
  induction l with
  | nil => intro c; rfl
  | cons d ds ih => intro c; simp [mulLoop, ih]

theorem mulLoop_val : ∀ (l : List ℕ) (c : ℕ),
    Nat.ofDigits 10 (mulLoop l c).1 + 10 ^ l.length * (mulLoop l c).2 =
      16 * Nat.ofDigits 10 l + c := by
  intro l
  induction l with
  | nil => intro c; simp [mulLoop, Nat.ofDigits_nil]
  | cons d ds ih =>
    intro c
    have h := ih ((d * 16 + c) / 10)
    simp only [mulLoop, Nat.ofDigits_cons, List.length_cons]
    have hmd : (d * 16 + c) % 10 + 10 * ((d * 16 + c) / 10) = d * 16 + c :=
      Nat.mod_add_div _ _
    ring_nf
    ring_nf at h
    nlinarith [h, hmd]

theorem mulLoop_bounds : ∀ (l : List ℕ) (c : ℕ), ∀ x ∈ (mulLoop l c).1, x < 10 := by
  intro l
  induction l with
  | nil => intro c x hx; simp [mulLoop] at hx
  | cons d ds ih =>
    intro c x hx
    simp only [mulLoop, List.mem_cons] at hx
    rcases hx with rfl | hx
    · exact Nat.mod_lt _ (by norm_num)
    · exact ih _ x hx

theorem mulLoop_carry_pos : ∀ (l : List ℕ) (c : ℕ) (h : l ≠ []),
    l.getLast h ≠ 0 → 0 < (mulLoop l c).2 := by
  intro l
  induction l with
  | nil => intro c h; exact absurd rfl h
  | cons d ds ih =>
    intro c h hlast
    cases ds with
    | nil =>
      simp only [List.getLast_singleton] at hlast
      have hd : 1 ≤ d := Nat.pos_of_ne_zero hlast
      simp only [mulLoop]
      have : 16 ≤ d * 16 + c := by nlinarith
      have : 1 ≤ (d * 16 + c) / 10 := by
        rw [Nat.le_div_iff_mul_le (by norm_num)]
        omega
      simpa [mulLoop] using this
    | cons e es =>
      have hlast' : (e :: es).getLast (by simp) ≠ 0 := by
        rwa [List.getLast_cons (by simp)] at hlast
      simp only [mulLoop]
      exact ih _ (by simp) hlast'

theorem addLoop_length : ∀ (l : List ℕ) (c : ℕ), (addLoop l c).1.length = l.length := by
  intro l
  induction l with
  | nil => intro c; rfl
  | cons d ds ih =>
    intro c
    simp only [addLoop]
    split
    · rfl
    · simp [ih]

theorem addLoop_val : ∀ (l : List ℕ) (c : ℕ),
    Nat.ofDigits 10 (addLoop l c).1 + 10 ^ l.length * (addLoop l c).2 =
      Nat.ofDigits 10 l + c := by
  intro l
  induction l with
  | nil => intro c; simp [addLoop, Nat.ofDigits_nil]
  | cons d ds ih =>
    intro c
    simp only [addLoop]
    split
    · rename_i hz
      have hlt : d + c < 10 := by
        rcases Nat.lt_or_ge (d + c) 10 with h | h
        · exact h
        · exact absurd (Nat.div_eq_zero_iff (by norm_num) |>.mp hz) (by omega)
      simp only [Nat.ofDigits_cons, List.length_cons, Nat.mod_eq_of_lt hlt]
      ring
    · rename_i hz
      have h := ih ((d + c) / 10)
      have hmd : (d + c) % 10 + 10 * ((d + c) / 10) = d + c := Nat.mod_add_div _ _
      simp only [Nat.ofDigits_cons, List.length_cons]
      ring_nf
      ring_nf at h
      nlinarith [h, hmd]

theorem addLoop_bounds : ∀ (l : List ℕ) (c : ℕ), (∀ x ∈ l, x < 10) →
    ∀ x ∈ (addLoop l c).1, x < 10 := by
  intro l
  induction l with
  | nil => intro c _ x hx; simp [addLoop] at hx
  | cons d ds ih =>
    intro c hl x hx
    simp only [addLoop] at hx
    split at hx
    · simp only [List.mem_cons] at hx
      rcases hx with rfl | hx
      · exact Nat.mod_lt _ (by norm_num)
      · exact hl x (List.mem_cons_of_mem _ hx)
    · simp only [List.mem_cons] at hx
      rcases hx with rfl | hx
      · exact Nat.mod_lt _ (by norm_num)
      · exact ih _ (fun y hy => hl y (List.mem_cons_of_mem _ hy)) x hx

theorem addLoop_cons (d : ℕ) (ds : List ℕ) (c : ℕ) :
    addLoop (d :: ds) c =
      if (d + c) / 10 = 0 then ((d + c) % 10 :: ds, 0)
      else ((d + c) % 10 :: (addLoop ds ((d + c) / 10)).1, (addLoop ds ((d + c) / 10)).2) := by
  simp only [addLoop]

theorem addLoop_last : ∀ (l : List ℕ) (c : ℕ), l ≠ [] → l.getLast? ≠ some 0 →
    (addLoop l c).1 ≠ [] ∧ ((addLoop l c).2 = 0 → (addLoop l c).1.getLast? ≠ some 0) := by
  intro l
  induction l with
  | nil => intro c h; exact absurd rfl h
  | cons d ds ih =>
    intro c _ hlast
    cases ds with
    | nil =>
      simp only [List.getLast?_singleton, ne_eq, Option.some_inj] at hlast
      simp only [addLoop]
      split
      · rename_i hz
        have hlt : d + c < 10 := by
          rcases Nat.lt_or_ge (d + c) 10 with h | h
          · exact h
          · exact absurd (Nat.div_eq_zero_iff (by norm_num) |>.mp hz) (by omega)
        refine ⟨by simp, fun _ => ?_⟩
        simp only [List.getLast?_singleton, ne_eq, Option.some_inj, Nat.mod_eq_of_lt hlt]
        omega
      · rename_i hz
        refine ⟨by simp, fun h2 => ?_⟩
        simp only [addLoop] at h2
        exact absurd h2 hz
    | cons e es =>
      have hlast' : (e :: es).getLast? ≠ some 0 := by
        rwa [List.getLast?_cons_cons] at hlast
      rw [addLoop_cons]
      split
      · exact ⟨by simp, fun _ => by rwa [List.getLast?_cons_cons]⟩
      · rcases ih ((d + c) / 10) (by simp) hlast' with ⟨h1, h2⟩
        refine ⟨by simp, fun hc => ?_⟩
        have hg := h2 hc
        cases hp : (addLoop (e :: es) ((d + c) / 10)).1 with
        | nil => exact absurd hp h1
        | cons f fs =>
          rw [hp] at hg
          show ((d + c) % 10 :: f :: fs).getLast? ≠ some 0
          rwa [List.getLast?_cons_cons]

/-- The canonical little-endian decimal digit list held by the Rust
accumulator: `[0]` for value 0 (the initial `vec![0]`), otherwise the
base-10 digits. -/
def decRep (v : ℕ) : List ℕ :=
  if v = 0 then [0] else Nat.digits 10 v

theorem decRep_ne_nil (v : ℕ) : decRep v ≠ [] := by
  unfold decRep
  split
  · simp
  · simpa [Nat.digits_ne_nil_iff_ne_zero] using by assumption

theorem ofDigits_mulBy16 (l : List ℕ) :
    Nat.ofDigits 10 (mulBy16 l) = 16 * Nat.ofDigits 10 l := by
  unfold mulBy16
  rw [Nat.ofDigits_append, pushCarry_eq_digits, Nat.ofDigits_digits, mulLoop_length]
  have := mulLoop_val l 0
  omega

theorem mulBy16_bounds (l : List ℕ) : ∀ x ∈ mulBy16 l, x < 10 := by
  intro x hx
  unfold mulBy16 at hx
  rcases List.mem_append.mp hx with h | h
  · exact mulLoop_bounds l 0 x h
  · rw [pushCarry_eq_digits] at h
    exact Nat.digits_lt_base (by norm_num) h

theorem getLast_ne_zero_of_getLast? {l : List ℕ} (h : l.getLast? ≠ some 0) :
    ∀ hne : l ≠ [], l.getLast hne ≠ 0 := by
  intro hne h0
  rw [List.getLast?_eq_getLast_of_ne_nil hne, h0] at h
  exact h rfl

theorem getLast?_digits_ne_zero {v : ℕ} (hv : v ≠ 0) :
    (Nat.digits 10 v).getLast? ≠ some 0 := by
  rw [List.getLast?_eq_getLast_of_ne_nil (Nat.digits_ne_nil_iff_ne_zero.mpr hv)]
  simp only [ne_eq, Option.some_inj]
  exact Nat.getLast_digit_ne_zero 10 hv

theorem mulBy16_decRep (v : ℕ) : mulBy16 (decRep v) = decRep (16 * v) := by
  rcases Nat.eq_zero_or_pos v with rfl | hv
  · decide
  · have hv' : v ≠ 0 := hv.ne'
    have h16v : 16 * v ≠ 0 := by positivity
    rw [show decRep v = Nat.digits 10 v from if_neg hv',
      show decRep (16 * v) = Nat.digits 10 (16 * v) from if_neg h16v]
    have hne : Nat.digits 10 v ≠ [] := Nat.digits_ne_nil_iff_ne_zero.mpr hv'
    have hcarry : 0 < (mulLoop (Nat.digits 10 v) 0).2 :=
      mulLoop_carry_pos _ 0 hne (Nat.getLast_digit_ne_zero 10 hv')
    have hpc_ne : pushCarry (mulLoop (Nat.digits 10 v) 0).2 ≠ [] := by
      rw [pushCarry_eq_digits]
      exact Nat.digits_ne_nil_iff_ne_zero.mpr hcarry.ne'
    have hlast? : (mulBy16 (Nat.digits 10 v)).getLast? ≠ some 0 := by
      unfold mulBy16
      rw [List.getLast?_append_of_ne_nil _ hpc_ne, pushCarry_eq_digits]
      exact getLast?_digits_ne_zero hcarry.ne'
    have hval : Nat.ofDigits 10 (mulBy16 (Nat.digits 10 v)) = 16 * v := by
      rw [ofDigits_mulBy16, Nat.ofDigits_digits]
    calc mulBy16 (Nat.digits 10 v)
        = Nat.digits 10 (Nat.ofDigits 10 (mulBy16 (Nat.digits 10 v))) :=
          (Nat.digits_ofDigits 10 (by norm_num) _ (mulBy16_bounds _)
            (getLast_ne_zero_of_getLast? hlast?)).symm
      _ = Nat.digits 10 (16 * v) := by rw [hval]

theorem ofDigits_addDigit (l : List ℕ) (c : ℕ) :
    Nat.ofDigits 10 (addDigit l c) = Nat.ofDigits 10 l + c := by
  unfold addDigit
  rw [Nat.ofDigits_append, pushCarry_eq_digits, Nat.ofDigits_digits, addLoop_length]
  have := addLoop_val l c
  omega

theorem addDigit_bounds (l : List ℕ) (c : ℕ) (hl : ∀ x ∈ l, x < 10) :
    ∀ x ∈ addDigit l c, x < 10 := by
  intro x hx
  unfold addDigit at hx
  rcases List.mem_append.mp hx with h | h
  · exact addLoop_bounds l c hl x h
  · rw [pushCarry_eq_digits] at h
    exact Nat.digits_lt_base (by norm_num) h

theorem addDigit_decRep (w c : ℕ) (hc : c ≤ 15) : addDigit (decRep w) c = decRep (w + c) := by
  rcases Nat.eq_zero_or_pos w with rfl | hw
  · have h09 : ∀ d : ℕ, d ≠ 0 → d < 10 → decRep d = [d] := by
      intro d h1 h2
      unfold decRep
      rw [if_neg h1, Nat.digits_of_lt 10 d h1 h2]
    have h1015 : ∀ d : ℕ, 10 ≤ d → d ≤ 15 → decRep d = [d % 10, 1] := by
      intro d h1 h2
      unfold decRep
      rw [if_neg (by omega), Nat.digits_def' (by norm_num) (by omega),
        show d / 10 = 1 by omega, Nat.digits_of_lt 10 1 (by norm_num) (by norm_num)]
    have hsmall : decRep c = if c = 0 then [0] else if c < 10 then [c] else [c % 10, 1] := by
      rcases Nat.eq_zero_or_pos c with rfl | hcpos
      · simp [decRep]
      · rcases Nat.lt_or_ge c 10 with h10 | h10
        · rw [h09 c hcpos.ne' h10, if_neg hcpos.ne', if_pos h10]
        · rw [h1015 c h10 hc, if_neg hcpos.ne', if_neg (by omega)]
    simp only [Nat.zero_add]
    rw [hsmall]
    interval_cases c <;> decide
  · have hw' : w ≠ 0 := hw.ne'
    rw [show decRep w = Nat.digits 10 w from if_neg hw']
    have hbounds : ∀ x ∈ addDigit (Nat.digits 10 w) c, x < 10 :=
      addDigit_bounds _ c fun x hx => Nat.digits_lt_base (by norm_num) hx
    have hval : Nat.ofDigits 10 (addDigit (Nat.digits 10 w) c) = w + c := by
      rw [ofDigits_addDigit, Nat.ofDigits_digits]
    have hlast? : (addDigit (Nat.digits 10 w) c).getLast? ≠ some 0 := by
      show ((addLoop (Nat.digits 10 w) c).1 ++
        pushCarry (addLoop (Nat.digits 10 w) c).2).getLast? ≠ some 0
      rcases Nat.eq_zero_or_pos (addLoop (Nat.digits 10 w) c).2 with hz | hpos
      · rw [hz, show pushCarry 0 = [] from rfl, List.append_nil]
        have hne : Nat.digits 10 w ≠ [] := Nat.digits_ne_nil_iff_ne_zero.mpr hw'
        exact (addLoop_last _ c hne (getLast?_digits_ne_zero hw')).2 hz
      · rw [List.getLast?_append_of_ne_nil _
            (by rw [pushCarry_eq_digits]
                exact Nat.digits_ne_nil_iff_ne_zero.mpr hpos.ne'),
          pushCarry_eq_digits]
        exact getLast?_digits_ne_zero hpos.ne'
    rw [show decRep (w + c) = Nat.digits 10 (w + c) from if_neg (by omega)]
    calc addDigit (Nat.digits 10 w) c
        = Nat.digits 10 (Nat.ofDigits 10 (addDigit (Nat.digits 10 w) c)) :=
          (Nat.digits_ofDigits 10 (by norm_num) _ hbounds
            (getLast_ne_zero_of_getLast? hlast?)).symm
      _ = Nat.digits 10 (w + c) := by rw [hval]

theorem hexStep_decRep (v d : ℕ) (hd : d < 16) :
    hexStep (decRep v) d = decRep (16 * v + d) := by
  unfold hexStep
  rw [mulBy16_decRep]
  exact addDigit_decRep (16 * v) d (by omega)

/-! ### Supporting lemmas: parsing and printing the hex encoding -/

theorem foldl_hexval (l : List ℕ) (hl : ∀ d ∈ l, d < 16) (a : ℕ) :
    List.foldl (fun x c => 16 * x + (hexDigit? c).getD 0) a ((l.map Nat.digitChar).reverse)
      = a * 16 ^ l.length + Nat.ofDigits 16 l := by
  induction l generalizing a with
  | nil => simp [Nat.ofDigits_nil]
  | cons d ds ih =>
    have hd : d < 16 := hl d (List.mem_cons_self _ _)
    have hds : ∀ x ∈ ds, x < 16 := fun x hx => hl x (List.mem_cons_of_mem _ hx)
    simp only [List.map_cons, List.reverse_cons, List.foldl_append, List.foldl_cons,
      List.foldl_nil, ih hds, Nat.ofDigits_cons, List.length_cons]
    rw [hexDigit?_digitChar hd]
    simp only [Option.getD_some]
    ring

theorem foldl_hexStep_digits (l : List ℕ) (hl : ∀ d ∈ l, d < 16) (v : ℕ) :
    List.foldl (fun r c => hexStep r ((hexDigit? c).getD 0)) (decRep v)
      ((l.map Nat.digitChar).reverse)
      = decRep (v * 16 ^ l.length + Nat.ofDigits 16 l) := by
  induction l generalizing v with
  | nil => simp [Nat.ofDigits_nil]
  | cons d ds ih =>
    have hd : d < 16 := hl d (List.mem_cons_self _ _)
    have hds : ∀ x ∈ ds, x < 16 := fun x hx => hl x (List.mem_cons_of_mem _ hx)
    simp only [List.map_cons, List.reverse_cons, List.foldl_append, List.foldl_cons,
      List.foldl_nil, ih hds]
    rw [hexDigit?_digitChar hd]
    simp only [Option.getD_some]
    rw [hexStep_decRep _ d hd]
    congr 1
    rw [Nat.ofDigits_cons, List.length_cons]
    ring

theorem sig_head (n : ℕ) (hn : n ≠ 0) :
    ∃ t, ((Nat.digits 16 n).map Nat.digitChar).reverse =
      Nat.digitChar ((Nat.digits 16 n).getLast
        (Nat.digits_ne_nil_iff_ne_zero.mpr hn)) :: t := by
  have hne : Nat.digits 16 n ≠ [] := Nat.digits_ne_nil_iff_ne_zero.mpr hn
  refine ⟨(((Nat.digits 16 n).dropLast).map Nat.digitChar).reverse, ?_⟩
  conv_lhs => rw [← List.dropLast_append_getLast hne]
  rw [List.map_append, List.reverse_append]
  simp

theorem sig_getLast_lt (n : ℕ) (hn : n ≠ 0) :
    (Nat.digits 16 n).getLast (Nat.digits_ne_nil_iff_ne_zero.mpr hn) < 16 :=
  Nat.digits_lt_base (by norm_num)
    (List.getLast_mem (Nat.digits_ne_nil_iff_ne_zero.mpr hn))

theorem encode_chars (n : ℕ) : ∀ c ∈ encodeHex64 n, c ≠ 'x' := by
  intro c hc
  unfold encodeHex64 at hc
  rcases List.mem_append.mp hc with h | h
  · rw [List.eq_of_mem_replicate h]
    decide
  · rw [List.mem_reverse] at h
    obtain ⟨d, hd, rfl⟩ := List.mem_map.mp h
    exact digitChar_ne_x (Nat.digits_lt_base (by norm_num) hd)

theorem stripPrefix0x_eq_self {l : List Char} (h : ∀ c ∈ l, c ≠ 'x') :
    stripPrefix0x l = l := by
  rw [stripPrefix0x.eq_def]
  split
  · exact absurd rfl (h 'x' (by simp))
  · rfl

theorem stripPrefix0x_cons0x (l : List Char) :
    stripPrefix0x ('0' :: 'x' :: l) = stripPrefix0x l := rfl

theorem dropWhile_replicate_zero (k : ℕ) (l : List Char) :
    List.dropWhile (· == '0') (List.replicate k '0' ++ l) =
      List.dropWhile (· == '0') l := by
  induction k with
  | zero => rfl
  | succ k ih => simp [List.replicate_succ, List.dropWhile_cons, ih]

theorem dropWhile_sig (n : ℕ) (hn : n ≠ 0) :
    List.dropWhile (· == '0') (((Nat.digits 16 n).map Nat.digitChar).reverse) =
      ((Nat.digits 16 n).map Nat.digitChar).reverse := by
  obtain ⟨t, ht⟩ := sig_head n hn
  rw [ht, List.dropWhile_cons, if_neg]
  simp only [beq_iff_eq]
  rw [digitChar_eq_zero_iff (sig_getLast_lt n hn)]
  exact Nat.getLast_digit_ne_zero 16 hn

theorem encode_trimmed (n : ℕ) (hn : n ≠ 0) :
    List.dropWhile (· == '0') (encodeHex64 n) =
      ((Nat.digits 16 n).map Nat.digitChar).reverse := by
  unfold encodeHex64
  rw [dropWhile_replicate_zero, dropWhile_sig n hn]

theorem encode_not_all_zero (n : ℕ) (hn : n ≠ 0) :
    (encodeHex64 n).all (· == '0') = false := by
  apply Bool.eq_false_iff.mpr
  intro hall
  rw [List.all_eq_true] at hall
  obtain ⟨t, ht⟩ := sig_head n hn
  have hmem : Nat.digitChar ((Nat.digits 16 n).getLast
      (Nat.digits_ne_nil_iff_ne_zero.mpr hn)) ∈ encodeHex64 n := by
    unfold encodeHex64
    refine List.mem_append_right _ ?_
    rw [ht]
    exact List.mem_cons_self _ _
  have hz := hall _ hmem
  simp only [beq_iff_eq] at hz
  rw [digitChar_eq_zero_iff (sig_getLast_lt n hn)] at hz
  exact Nat.getLast_digit_ne_zero 16 hn hz

theorem encode_ne_nil (n : ℕ) (hn : n ≠ 0) : encodeHex64 n ≠ [] := by
  obtain ⟨t, ht⟩ := sig_head n hn
  simp only [encodeHex64]
  intro hcontra
  rcases List.append_eq_nil.mp hcontra with ⟨_, h2⟩
  rw [ht] at h2
  exact List.cons_ne_nil _ _ h2

theorem encode_not_empty (n : ℕ) (hn : n ≠ 0) :
    (encodeHex64 n).isEmpty = false := by
  cases henc : encodeHex64 n with
  | nil => exact absurd henc (encode_ne_nil n hn)
  | cons a s => rfl

theorem sig_all_hex (n : ℕ) :
    (((Nat.digits 16 n).map Nat.digitChar).reverse).all isHexDigitChar = true := by
  rw [List.all_eq_true]
  intro c hc
  rw [List.mem_reverse] at hc
  obtain ⟨d, hd, rfl⟩ := List.mem_map.mp hc
  exact isHexDigitChar_digitChar (Nat.digits_lt_base (by norm_num) hd)

theorem fromStrRadix16_sig (n : ℕ) (hn : n ≠ 0) (bound : ℕ) (hb : n < bound) :
    fromStrRadix16 (((Nat.digits 16 n).map Nat.digitChar).reverse) bound = some n := by
  obtain ⟨t, ht⟩ := sig_head n hn
  have hhead : (((Nat.digits 16 n).map Nat.digitChar).reverse).head? ≠ some '+' := by
    rw [ht]
    simp only [List.head?_cons, ne_eq, Option.some_inj]
    exact digitChar_ne_plus (sig_getLast_lt n hn)
  have hds : (if (((Nat.digits 16 n).map Nat.digitChar).reverse).head? = some '+'
      then (((Nat.digits 16 n).map Nat.digitChar).reverse).tail
      else ((Nat.digits 16 n).map Nat.digitChar).reverse) =
      ((Nat.digits 16 n).map Nat.digitChar).reverse := if_neg hhead
  have hne : (((Nat.digits 16 n).map Nat.digitChar).reverse).isEmpty = false := by
    rw [ht]
    rfl
  have hfold : List.foldl (fun a c => 16 * a + (hexDigit? c).getD 0) 0
      (((Nat.digits 16 n).map Nat.digitChar).reverse) = n := by
    rw [foldl_hexval _ (fun d hd => Nat.digits_lt_base (by norm_num) hd) 0,
      zero_mul, zero_add, Nat.ofDigits_digits]
  simp only [fromStrRadix16, hds, hne, Bool.false_eq_true, if_false, sig_all_hex n,
    if_true, hfold, if_pos hb]

theorem hexToDecimal_sig (n : ℕ) (hn : n ≠ 0) :
    hexToDecimal (((Nat.digits 16 n).map Nat.digitChar).reverse) = decChars n := by
  simp only [hexToDecimal]
  rw [show ([0] : List ℕ) = decRep 0 from rfl,
    foldl_hexStep_digits (Nat.digits 16 n) (fun d hd => Nat.digits_lt_base (by norm_num) hd) 0,
    zero_mul, zero_add, Nat.ofDigits_digits,
    show decRep n = Nat.digits 10 n from if_neg hn]
  unfold decChars
  rw [if_neg hn, ← List.map_reverse]
  exact List.map_congr_left fun d hd =>
    ofNat_shift_eq_digitChar (Nat.digits_lt_base (by norm_num) (List.mem_reverse.mp hd))

theorem digits16_lt_pow (n : ℕ) : n < 16 ^ (Nat.digits 16 n).length :=
  Nat.lt_base_pow_length_digits (by norm_num)

theorem decodeUint256_encode (n : ℕ) (hn : n < 2 ^ 256) :
    decodeUint256 (encodeHex64 n) = some (decChars n) := by
  rcases Nat.eq_zero_or_pos n with rfl | hnpos
  · rw [show encodeHex64 0 = List.replicate 64 '0' by simp [encodeHex64]]
    decide
  · have hn' : n ≠ 0 := hnpos.ne'
    have hstrip : stripPrefix0x (encodeHex64 n) = encodeHex64 n :=
      stripPrefix0x_eq_self (encode_chars n)
    have hsig_ne : (((Nat.digits 16 n).map Nat.digitChar).reverse).isEmpty = false := by
      obtain ⟨t, ht⟩ := sig_head n hn'
      rw [ht]
      rfl
    have hlen : (((Nat.digits 16 n).map Nat.digitChar).reverse).length =
        (Nat.digits 16 n).length := by
      simp
    simp only [decodeUint256, hstrip, encode_not_empty n hn', encode_not_all_zero n hn',
      Bool.or_self, Bool.false_eq_true, if_false, encode_trimmed n hn', hsig_ne, hlen]
    rcases le_or_lt (Nat.digits 16 n).length 16 with h16 | h16
    · have hn64 : n < 2 ^ 64 := by
        calc n < 16 ^ (Nat.digits 16 n).length := digits16_lt_pow n
          _ ≤ 16 ^ 16 := Nat.pow_le_pow_right (by norm_num) h16
          _ = 2 ^ 64 := by norm_num
      rw [if_pos h16, fromStrRadix16_sig n hn' _ hn64]
      rfl
    · rw [if_neg (by omega)]
      rcases le_or_lt (Nat.digits 16 n).length 32 with h32 | h32
      · have hn128 : n < 2 ^ 128 := by
          calc n < 16 ^ (Nat.digits 16 n).length := digits16_lt_pow n
            _ ≤ 16 ^ 32 := Nat.pow_le_pow_right (by norm_num) h32
            _ = 2 ^ 128 := by norm_num
        rw [if_pos h32, fromStrRadix16_sig n hn' _ hn128]
        rfl
      · rw [if_neg (by omega), hexToDecimal_sig n hn']

theorem decodeUint256_cons0x (l : List Char) :
    decodeUint256 ('0' :: 'x' :: l) = decodeUint256 l := by
  simp only [decodeUint256, stripPrefix0x_cons0x]

/-! ### Claim theorems -/

/-- C1: for every `N < 2 ^ 256`, decoding the 64-hex-digit zero-padded
big-endian encoding of `N` (with or without a `"0x"` prefix) via
`decode_uint256` succeeds and returns exactly the base-10 decimal string
of `N`, through the `u64`, `u128` and manual hex-to-decimal paths alike. -/
theorem decode_uint256_roundtrip (n : ℕ) (hn : n < 2 ^ 256) :
    decodeUint256 (encodeHex64 n) = some (decChars n) ∧
      decodeUint256 ('0' :: 'x' :: encodeHex64 n) = some (decChars n) := by
  refine ⟨decodeUint256_encode n hn, ?_⟩
  rw [decodeUint256_cons0x]
  exact decodeUint256_encode n hn

/-- Witness for C1 at `N = 2 ^ 160`, a value beyond both machine-word
fast paths (the specification's own example). -/
theorem decode_uint256_roundtrip_witness :
    2 ^ 160 < 2 ^ 256 ∧
      (decodeUint256 (encodeHex64 (2 ^ 160)) = some (decChars (2 ^ 160)) ∧
        decodeUint256 ('0' :: 'x' :: encodeHex64 (2 ^ 160)) = some (decChars (2 ^ 160))) :=
  ⟨by norm_num, decode_uint256_roundtrip (2 ^ 160) (by norm_num)⟩


theorem fromStrRadix16_none (l : List Char) (bound : ℕ)
    (h : l.all (fun c => isHexDigitChar c || c == '+') = false) :
    fromStrRadix16 l bound = none := by
  obtain ⟨c, hcl, hcp⟩ : ∃ c ∈ l, (isHexDigitChar c || c == '+') = false := by
    by_contra hcon
    push_neg at hcon
    have hall : l.all (fun c => isHexDigitChar c || c == '+') = true :=
      List.all_eq_true.mpr fun c hc => by
        cases hb : (isHexDigitChar c || c == '+') with
        | true => rfl
        | false => exact absurd hb (hcon c hc)
    rw [hall] at h
    simp at h
  have hchex : isHexDigitChar c = false := by
    cases hb : isHexDigitChar c with
    | true => rw [hb] at hcp; simp at hcp
    | false => rfl
  have hcplus : c ≠ '+' := by
    intro hc
    subst hc
    simp at hcp
  have hkey : ∀ ds : List Char, c ∈ ds → (if ds.isEmpty = true then (none : Option ℕ)
      else if ds.all isHexDigitChar = true then
        if ds.foldl (fun a c => 16 * a + (hexDigit? c).getD 0) 0 < bound then
          some (ds.foldl (fun a c => 16 * a + (hexDigit? c).getD 0) 0)
        else none
      else none) = none := by
    intro ds hcds
    have hall : ds.all isHexDigitChar = false := by
      apply Bool.eq_false_iff.mpr
      intro hall
      have := List.all_eq_true.mp hall c hcds
      rw [hchex] at this
      exact Bool.false_ne_true this
    rw [hall]
    simp
  by_cases hh : l.head? = some '+'
  · have hl : c ∈ l.tail := by
      cases l with
      | nil => simp at hcl
      | cons a t =>
        simp only [List.head?_cons, Option.some_inj] at hh
        subst hh
        rcases List.mem_cons.mp hcl with rfl | hmem
        · exact absurd rfl hcplus
        · exact hmem
    simp only [fromStrRadix16, if_pos hh]
    exact hkey l.tail hl
  · simp only [fromStrRadix16, if_neg hh]
    exact hkey l hcl

/-- C4 (amended): after stripping `"0x"` and leading zeros, if the
significant digit string is within the machine-word fast paths (length at
most 32) and contains a character that is neither a hex digit nor the
`'+'` accepted by Rust's `from_str_radix`, `decode_uint256` errors; but
when the significant digit string is longer than 32 characters, it never
errors — `hex_to_decimal` silently maps every non-hex character to digit
value 0. -/
theorem decode_uint256_nonhex (s : List Char) :
    (((stripPrefix0x s).isEmpty || (stripPrefix0x s).all (· == '0')) = false →
      ((stripPrefix0x s).dropWhile (· == '0')).length ≤ 32 →
      ((stripPrefix0x s).dropWhile (· == '0')).all
        (fun c => isHexDigitChar c || c == '+') = false →
      decodeUint256 s = none) ∧
    (((stripPrefix0x s).isEmpty || (stripPrefix0x s).all (· == '0')) = false →
      32 < ((stripPrefix0x s).dropWhile (· == '0')).length →
      decodeUint256 s = some (hexToDecimal ((stripPrefix0x s).dropWhile (· == '0')))) := by
  constructor
  · intro h1 h2 h3
    have htne : (stripPrefix0x s).dropWhile (· == '0') ≠ [] := by
      intro hnil
      rw [hnil] at h3
      simp at h3
    have htempty : ((stripPrefix0x s).dropWhile (· == '0')).isEmpty = false := by
      cases ht : (stripPrefix0x s).dropWhile (· == '0') with
      | nil => exact absurd ht htne
      | cons a t => rfl
    simp only [decodeUint256, h1, Bool.false_eq_true, if_false, htempty]
    rcases le_or_lt ((stripPrefix0x s).dropWhile (· == '0')).length 16 with h16 | h16
    · rw [if_pos h16, fromStrRadix16_none _ _ h3]
      rfl
    · rw [if_neg (by omega), if_pos h2, fromStrRadix16_none _ _ h3]
      rfl
  · intro h1 h2
    have htempty : ((stripPrefix0x s).dropWhile (· == '0')).isEmpty = false := by
      cases ht : (stripPrefix0x s).dropWhile (· == '0') with
      | nil => rw [ht] at h2; simp at h2
      | cons a t => rfl
    simp only [decodeUint256, h1, Bool.false_eq_true, if_false, htempty]
    rw [if_neg (by omega), if_neg (by omega)]

/-- Witness for C4 (amended), fast-path side: a lone non-hex character is
rejected. -/
theorem decode_uint256_nonhex_witness : decodeUint256 ['z'] = none :=
  (decode_uint256_nonhex ['z']).1 (by decide) (by decide) (by decide)

/-- Counterexample to C4 as stated: the input `"0x1ggggggggggggggggggggggggggggggggg"`
(33 significant characters, beyond both machine-word fast paths) contains
the non-hex character `'g'`, yet `decode_uint256` succeeds, treating every
`'g'` as digit 0 and returning the decimal string of `16 ^ 32`. -/
theorem decode_uint256_nonhex_counterexample :
    isHexDigitChar 'g' = false ∧
      'g' ∈ (stripPrefix0x ('0' :: 'x' :: '1' :: List.replicate 32 'g')).dropWhile (· == '0') ∧
      32 < ((stripPrefix0x ('0' :: 'x' :: '1' :: List.replicate 32 'g')).dropWhile
        (· == '0')).length ∧
      decodeUint256 ('0' :: 'x' :: '1' :: List.replicate 32 'g') =
        some ['3', '4', '0', '2', '8', '2', '3', '6', '6', '9', '2', '0', '9', '3', '8',
          '4', '6', '3', '4', '6', '3', '3', '7', '4', '6', '0', '7', '4', '3', '1', '7',
          '6', '8', '2', '1', '1', '4', '5', '6'] := by
  set_option maxRecDepth 10000 in decide

theorem score_decimals_le (d : ℕ) : RiskScorer.score_decimals d ≤ 20 := by
  unfold RiskScorer.score_decimals
  split_ifs <;> norm_num

theorem score_features_le (capabilities : TokenCapabilities) (bytecode : BytecodeAnalysis) :
    RiskScorer.score_features capabilities bytecode ≤ 25 := by
  unfold RiskScorer.score_features
  split_ifs <;> simp

theorem score_bytecode_le (bytecode : BytecodeAnalysis) :
    RiskScorer.score_bytecode bytecode ≤ 20 :=
  min_le_right _ _

theorem score_holders_le (holder_data : Option HolderData) :
    RiskScorer.score_holders holder_data ≤ 15 := by
  unfold RiskScorer.score_holders
  rcases holder_data with _ | data
  · norm_num
  · dsimp only
    split_ifs <;> norm_num

theorem score_bridge_le (bridge_status : BridgeStatus) :
    RiskScorer.score_bridge bridge_status ≤ 15 := by
  unfold RiskScorer.score_bridge
  split_ifs <;> norm_num

/-- C2: every call of `RiskScorer::calculate` produces components within
their documented bounds (decimal ≤ 20, features ≤ 25, bytecode ≤ 20,
holders ≤ 15, bridge ≤ 20), a total equal to the clamped sum of the five
components — the `u8` sum never wraps — and a rating of Low / Medium /
High exactly on the bands total ≤ 33 / 34..66 / > 66. -/
theorem risk_calculate_bounds (token : TokenInfo) (capabilities : TokenCapabilities)
    (bytecode : BytecodeAnalysis) (bridge_status : BridgeStatus)
    (holder_data : Option HolderData) :
    (RiskScorer.calculate token capabilities bytecode bridge_status
        holder_data).components.decimal_handling ≤ 20 ∧
    (RiskScorer.calculate token capabilities bytecode bridge_status
        holder_data).components.token_features ≤ 25 ∧
    (RiskScorer.calculate token capabilities bytecode bridge_status
        holder_data).components.bytecode_complexity ≤ 20 ∧
    (RiskScorer.calculate token capabilities bytecode bridge_status
        holder_data).components.holder_concentration ≤ 15 ∧
    (RiskScorer.calculate token capabilities bytecode bridge_status
        holder_data).components.bridge_status ≤ 20 ∧
    (RiskScorer.calculate token capabilities bytecode bridge_status holder_data).total =
      min ((RiskScorer.calculate token capabilities bytecode bridge_status
          holder_data).components.decimal_handling +
        (RiskScorer.calculate token capabilities bytecode bridge_status
          holder_data).components.token_features +
        (RiskScorer.calculate token capabilities bytecode bridge_status
          holder_data).components.bytecode_complexity +
        (RiskScorer.calculate token capabilities bytecode bridge_status
          holder_data).components.holder_concentration +
        (RiskScorer.calculate token capabilities bytecode bridge_status
          holder_data).components.bridge_status) 100 ∧
    ((RiskScorer.calculate token capabilities bytecode bridge_status
        holder_data).rating = RiskRating.Low ↔
      (RiskScorer.calculate token capabilities bytecode bridge_status
        holder_data).total ≤ 33) ∧
    ((RiskScorer.calculate token capabilities bytecode bridge_status
        holder_data).rating = RiskRating.Medium ↔
      (34 ≤ (RiskScorer.calculate token capabilities bytecode bridge_status
        holder_data).total ∧
        (RiskScorer.calculate token capabilities bytecode bridge_status
          holder_data).total ≤ 66)) ∧
    ((RiskScorer.calculate token capabilities bytecode bridge_status
        holder_data).rating = RiskRating.High ↔
      66 < (RiskScorer.calculate token capabilities bytecode bridge_status
        holder_data).total) := by
  have hd := score_decimals_le token.decimals
  have hf := score_features_le capabilities bytecode
  have hb := score_bytecode_le bytecode
  have hh := score_holders_le holder_data
  have hbr := score_bridge_le bridge_status
  have hsum : RiskScorer.score_decimals token.decimals +
      RiskScorer.score_features capabilities bytecode +
      RiskScorer.score_bytecode bytecode +
      RiskScorer.score_holders holder_data +
      RiskScorer.score_bridge bridge_status < 2 ^ 8 := by omega
  simp only [RiskScorer.calculate, RiskScore.from_components, Nat.mod_eq_of_lt hsum]
  refine ⟨hd, hf, hb, hh, by omega, trivial, ?_, ?_, ?_⟩ <;> split_ifs <;>
    simp_all <;> omega

/-- C3: whenever the rebasing flag is set, regardless of every other
input: the verdict is non-compatible, the issue list carries an
Error-severity issue with code `"REBASING"`, and the token-features risk
component is exactly 25 with nothing else added. -/
theorem rebasing_hard_veto (token : TokenInfo) (capabilities : TokenCapabilities)
    (bytecode : BytecodeAnalysis) (hreb : capabilities.is_rebasing = true) :
    (CompatibilityChecker.check token capabilities bytecode).is_compatible = false ∧
      (∃ i ∈ (CompatibilityChecker.check token capabilities bytecode).issues,
        i.severity = IssueSeverity.Error ∧ i.code = "REBASING") ∧
      RiskScorer.score_features capabilities bytecode = 25 := by
  have hmem : (⟨IssueSeverity.Error, "REBASING"⟩ : CompatibilityIssue) ∈
      (CompatibilityChecker.check token capabilities bytecode).issues := by
    simp only [CompatibilityChecker.check, CompatibilityChecker.check_rebasing, hreb,
      if_true, List.mem_append, List.mem_cons]
    tauto
  refine ⟨?_, ⟨_, hmem, rfl, rfl⟩, ?_⟩
  · simp only [CompatibilityChecker.check] at hmem ⊢
    have hany : ((CompatibilityChecker.check_decimals token.decimals).1 ++
        CompatibilityChecker.check_rebasing capabilities ++
        CompatibilityChecker.check_features capabilities bytecode ++
        CompatibilityChecker.check_bytecode bytecode).any
          (fun i => i.severity == IssueSeverity.Error) = true :=
      List.any_eq_true.mpr ⟨_, hmem, by rfl⟩
    rw [hany]
    rfl
  · simp only [RiskScorer.score_features, hreb, if_true]

/-- Witness for C3 at a concrete rebasing token. -/
theorem rebasing_hard_veto_witness :
    (CompatibilityChecker.check
        ⟨"0x0", Chain.Ethereum, "stETH", "stETH", 18, "1000000"⟩
        ⟨false, false, false, false, false, false, true⟩
        BytecodeAnalysis.default).is_compatible = false ∧
      (∃ i ∈ (CompatibilityChecker.check
          ⟨"0x0", Chain.Ethereum, "stETH", "stETH", 18, "1000000"⟩
          ⟨false, false, false, false, false, false, true⟩
          BytecodeAnalysis.default).issues,
        i.severity = IssueSeverity.Error ∧ i.code = "REBASING") ∧
      RiskScorer.score_features ⟨false, false, false, false, false, false, true⟩
        BytecodeAnalysis.default = 25 :=
  rebasing_hard_veto _ _ _ rfl

/-- Counterexample to C5 as stated: at exactly 15 KB (15360 bytes, inside
the claim's "5KB to 15KB inclusive" Moderate band and not "strictly
greater than 15KB"), `calculate_complexity` returns Complex, not
Moderate. -/
theorem calculate_complexity_boundary_counterexample :
    5 * 1024 ≤ 15360 ∧ 15360 ≤ 15 * 1024 ∧
      calculateComplexity 15360 = BytecodeComplexity.Complex ∧
      calculateComplexity 15360 ≠ BytecodeComplexity.Moderate := by
  decide

/-- C5 (amended): the byte-length thresholds are half-open — Simple for
sizes below 5 KB, Moderate for sizes in [5 KB, 15 KB), Complex for sizes
of 15 KB and above; `analyze` classifies by `stripped length / 2` through
the same function for every input. -/
theorem calculate_complexity_thresholds (n : ℕ) :
    (n < 5 * 1024 → calculateComplexity n = BytecodeComplexity.Simple) ∧
    (5 * 1024 ≤ n → n < 15 * 1024 → calculateComplexity n = BytecodeComplexity.Moderate) ∧
    (15 * 1024 ≤ n → calculateComplexity n = BytecodeComplexity.Complex) ∧
    ∀ s : List Char, (analyze s).complexity =
      calculateComplexity ((stripPrefix0x s).length / 2) := by
  refine ⟨?_, ?_, ?_, ?_⟩
  · intro h
    simp [calculateComplexity, h]
  · intro h1 h2
    unfold calculateComplexity
    split_ifs <;> first | rfl | omega
  · intro h
    unfold calculateComplexity
    split_ifs <;> first | rfl | omega
  · intro s
    simp only [analyze]
    split
    · rename_i hz
      rw [hz]
      rfl
    · rfl

/-- Witness for C5 (amended) at a 20000-byte contract. -/
theorem calculate_complexity_thresholds_witness :
    calculateComplexity 20000 = BytecodeComplexity.Complex :=
  (calculate_complexity_thresholds 20000).2.2.1 (by norm_num)

/-- C6: source precision ≤ 8 passes through unchanged with no trimming and
zero decimal risk; precision ≥ 9 is trimmed to a fixed destination
precision of 8 with a Warning `"DECIMAL_TRIM"` issue, and the decimal risk
component follows the bands 9 → 3, 10–12 → 8, 13–15 → 14, ≥ 16 → 20. -/
theorem decimal_handling_rules (token : TokenInfo) (capabilities : TokenCapabilities)
    (bytecode : BytecodeAnalysis) :
    (token.decimals ≤ 8 →
      (CompatibilityChecker.check token capabilities bytecode).solana_decimals =
          token.decimals ∧
        (CompatibilityChecker.check token capabilities
          bytecode).decimal_trimming_required = false ∧
        RiskScorer.score_decimals token.decimals = 0) ∧
    (9 ≤ token.decimals →
      (CompatibilityChecker.check token capabilities bytecode).solana_decimals = 8 ∧
        (CompatibilityChecker.check token capabilities
          bytecode).decimal_trimming_required = true ∧
        (∃ i ∈ (CompatibilityChecker.check token capabilities bytecode).issues,
          i.severity = IssueSeverity.Warning ∧ i.code = "DECIMAL_TRIM") ∧
        (token.decimals = 9 → RiskScorer.score_decimals token.decimals = 3) ∧
        (10 ≤ token.decimals → token.decimals ≤ 12 →
          RiskScorer.score_decimals token.decimals = 8) ∧
        (13 ≤ token.decimals → token.decimals ≤ 15 →
          RiskScorer.score_decimals token.decimals = 14) ∧
        (16 ≤ token.decimals → RiskScorer.score_decimals token.decimals = 20)) := by
  constructor
  · intro h8
    have hng : ¬(token.decimals > 8) := by omega
    refine ⟨?_, ?_, ?_⟩
    · simp [CompatibilityChecker.check, CompatibilityChecker.check_decimals, if_neg hng]
    · simp [CompatibilityChecker.check, CompatibilityChecker.check_decimals, if_neg hng]
    · unfold RiskScorer.score_decimals
      rw [if_pos h8]
  · intro h9
    have hgt : token.decimals > 8 := by omega
    refine ⟨?_, ?_, ?_, ?_, ?_, ?_, ?_⟩
    · simp [CompatibilityChecker.check, CompatibilityChecker.check_decimals, if_pos hgt]
    · simp [CompatibilityChecker.check, CompatibilityChecker.check_decimals, if_pos hgt]
    · refine ⟨⟨IssueSeverity.Warning, "DECIMAL_TRIM"⟩, ?_, rfl, rfl⟩
      simp only [CompatibilityChecker.check, CompatibilityChecker.check_decimals,
        if_pos hgt, List.mem_append, List.mem_cons]
      tauto
    all_goals (intros; unfold RiskScorer.score_decimals; split_ifs <;> first | rfl | omega)

/-- Witness for C6 at 6 and 9 source decimals. -/
theorem decimal_handling_rules_witness :
    ((CompatibilityChecker.check ⟨"0x0", Chain.Ethereum, "Test", "TEST", 6, "1000000"⟩
        ⟨false, false, false, false, false, false, false⟩
        BytecodeAnalysis.default).solana_decimals = 6 ∧
      (CompatibilityChecker.check ⟨"0x0", Chain.Ethereum, "Test", "TEST", 6, "1000000"⟩
        ⟨false, false, false, false, false, false, false⟩
        BytecodeAnalysis.default).decimal_trimming_required = false ∧
      RiskScorer.score_decimals 6 = 0) ∧
    ((CompatibilityChecker.check ⟨"0x0", Chain.Ethereum, "Test", "TEST", 9, "1000000"⟩
        ⟨false, false, false, false, false, false, false⟩
        BytecodeAnalysis.default).solana_decimals = 8 ∧
      (CompatibilityChecker.check ⟨"0x0", Chain.Ethereum, "Test", "TEST", 9, "1000000"⟩
        ⟨false, false, false, false, false, false, false⟩
        BytecodeAnalysis.default).decimal_trimming_required = true ∧
      (∃ i ∈ (CompatibilityChecker.check ⟨"0x0", Chain.Ethereum, "Test", "TEST", 9, "1000000"⟩
          ⟨false, false, false, false, false, false, false⟩
          BytecodeAnalysis.default).issues,
        i.severity = IssueSeverity.Warning ∧ i.code = "DECIMAL_TRIM")) :=
  ⟨(decimal_handling_rules _ _ _).1 (by norm_num),
    ⟨((decimal_handling_rules _ _ _).2 (by norm_num)).1,
      ((decimal_handling_rules _ _ _).2 (by norm_num)).2.1,
      ((decimal_handling_rules _ _ _).2 (by norm_num)).2.2.1⟩⟩

/-- C7: the recommended operating mode of the compatibility verdict is
Burning exactly when the burn capability flag is set and Locking exactly
when it is not, independent of the mint flag and every other input. -/
theorem recommended_mode_iff (token : TokenInfo) (capabilities : TokenCapabilities)
    (bytecode : BytecodeAnalysis) :
    ((CompatibilityChecker.check token capabilities bytecode).recommended_mode =
        NttMode.Burning ↔ capabilities.has_burn = true) ∧
    ((CompatibilityChecker.check token capabilities bytecode).recommended_mode =
        NttMode.Locking ↔ capabilities.has_burn = false) := by
  simp only [CompatibilityChecker.check, CompatibilityChecker.determine_mode]
  cases h : capabilities.has_burn <;> simp

/-- C9: the bytecode pattern analyzer is total — for every input string
(empty, odd-length and non-hex included) `analyze` yields a profile whose
size is always `stripped length / 2`, and `detect_capabilities` yields a
capability set in which the absence of every matching selector makes the
corresponding flag false, never an error. -/
theorem bytecode_analyzer_total (s : List Char) :
    (analyze s).size_bytes = (stripPrefix0x s).length / 2 ∧
    (containsSeq ((stripPrefix0x s).map asciiLower) capability_selectors.MINT = false →
      (detectCapabilities s).has_mint = false) ∧
    (containsSeq ((stripPrefix0x s).map asciiLower) capability_selectors.BURN = false →
      containsSeq ((stripPrefix0x s).map asciiLower) capability_selectors.BURN_FROM = false →
      (detectCapabilities s).has_burn = false) ∧
    (containsSeq ((stripPrefix0x s).map asciiLower) capability_selectors.PAUSE = false →
      containsSeq ((stripPrefix0x s).map asciiLower) capability_selectors.UNPAUSE = false →
      (detectCapabilities s).has_pause = false) ∧
    (containsSeq ((stripPrefix0x s).map asciiLower) capability_selectors.BLACKLIST = false →
      containsSeq ((stripPrefix0x s).map asciiLower)
        capability_selectors.ADD_BLACKLIST = false →
      (detectCapabilities s).has_blacklist = false) ∧
    (containsSeq ((stripPrefix0x s).map asciiLower) capability_selectors.PERMIT = false →
      (detectCapabilities s).has_permit = false) := by
  refine ⟨?_, ?_, ?_, ?_, ?_, ?_⟩
  · simp only [analyze]
    split
    · rename_i hz
      rw [hz]
      rfl
    · rfl
  all_goals (intros; simp_all [detectCapabilities])

/-- Witness for C9 on the input `"00"`, which matches no selector. -/
theorem bytecode_analyzer_total_witness :
    (detectCapabilities ['0', '0']).has_mint = false :=
  (bytecode_analyzer_total ['0', '0']).2.1 (by decide)

/-- C10: `decode_string` never reads the 32-byte offset word — two inputs
whose stripped forms are at least 128 characters long and agree from hex
position 64 onward (length word and payload) decode identically, whatever
the first 64 characters hold. -/
theorem decode_string_ignores_offset (s₁ s₂ p₁ p₂ sfx : List Char)
    (h₁ : stripPrefix0x s₁ = p₁ ++ sfx) (h₂ : stripPrefix0x s₂ = p₂ ++ sfx)
    (hp₁ : p₁.length = 64) (hp₂ : p₂.length = 64) (hs : 64 ≤ sfx.length) :
    decodeString s₁ = decodeString s₂ := by
  simp only [decodeString, h₁, h₂]
  rw [show (p₁ ++ sfx).drop 64 = sfx by rw [← hp₁, List.drop_left],
    show (p₂ ++ sfx).drop 64 = sfx by rw [← hp₂, List.drop_left],
    show (p₁ ++ sfx).drop 128 = sfx.drop 64 by
      rw [show (128 : ℕ) = 64 + 64 from rfl, ← List.drop_drop, ← hp₁, List.drop_left],
    show (p₂ ++ sfx).drop 128 = sfx.drop 64 by
      rw [show (128 : ℕ) = 64 + 64 from rfl, ← List.drop_drop, ← hp₂, List.drop_left],
    show (p₁ ++ sfx).length = 64 + sfx.length by simp [hp₁],
    show (p₂ ++ sfx).length = 64 + sfx.length by simp [hp₂],
    if_neg (by omega : ¬(64 + sfx.length < 128)),
    if_neg (by omega : ¬(64 + sfx.length < 128))]

/-- Witness for C10: two concrete 128-character inputs differing only in
their offset words decode identically. -/
theorem decode_string_ignores_offset_witness :
    decodeString (List.replicate 64 'a' ++ List.replicate 64 '0') =
      decodeString (List.replicate 64 'b' ++ List.replicate 64 '0') :=
  decode_string_ignores_offset _ _ (List.replicate 64 'a') (List.replicate 64 'b')
    (List.replicate 64 '0') (by decide) (by decide) (by decide) (by decide) (by decide)

/-- C8: the standard dynamic encoding of `"USDC"` (offset word 0x20,
length word 4, zero-padded ASCII payload) decodes to exactly `"USDC"`; a
standard encoding with a zero length word decodes to the empty string,
not an error; and a primary-path payload that is not valid UTF-8 (here
the single byte 0xFF) is a decode failure, never silently replaced. -/
theorem decode_string_cases :
    decodeString ('0' :: 'x' :: (List.replicate 62 '0' ++ ['2', '0'] ++
        List.replicate 63 '0' ++ ['4'] ++
        ['5', '5', '5', '3', '4', '4', '4', '3'] ++ List.replicate 56 '0')) =
      some ['U', 'S', 'D', 'C'] ∧
    decodeString ('0' :: 'x' :: (List.replicate 62 '0' ++ ['2', '0'] ++
        List.replicate 64 '0')) = some [] ∧
    decodeString ('0' :: 'x' :: (List.replicate 62 '0' ++ ['2', '0'] ++
        List.replicate 63 '0' ++ ['1'] ++ ['f', 'f'])) = none := by
  set_option maxRecDepth 10000 in decide
